import Mathlib

/-! Zimer: a named one-shot timer scheduler (`zimer.h`).

A shallow embedding of the class `Zimer`: the pending queue
(`std::priority_queue` ordered by `cmp`), the set of valid names
(`std::unordered_set<std::string>`), the public operations `add`, `remove`,
`remove_if`, `size`, `clear`, the due-event loop of the worker `work_func_`
and the drain of the destructor.

Modelling conventions.

* A callback (`TimerEventCallback`, a `std::function<void(int32_t)>`) is an
  opaque tag; running `cb(code)` is recorded as the `Call` `⟨cb, code⟩`.  Each
  operation returns the calls it made, in the order it made them.
* `uint64_t` times are natural numbers; the only arithmetic on them is the
  subtraction of the sleep bound, taken modulo `2 ^ 64`.
* The value returned by `get_current_time_ms` is an argument `curr_time_ms` of
  the operation that reads the clock.
* The mutex, the condition variable, the thread handle and `_run_flag` carry no
  data of the scheduler and are not part of `State`: an operation on `State`
  is one step, and a worker pass reads one clock value.
* `add` reads the clock before it takes the mutex.  Where the order of the clock
  reads matters, executions are sequences of `Event`: the clock read of `add`
  (`add_read`) and its locked part (`add_locked`) are two steps, and steps of
  other threads can come between them.
* The lock scopes of the methods are embedded apart, as the sequence of
  statements that take or release `_mtx` or touch the queue or the validity
  set (`add_trace`, `remove_trace`, ...), checked by `guarded`.
-/

namespace Zimer

/-- The polling ceiling of the worker, in milliseconds (`zimer.h`, line 13). -/
def CONDVAR_TIMEOUT_MS : Nat := 1000

/-- A callback value, identified by a tag. -/
abbrev TimerEventCallback := Nat

/-- One invocation `cb(code)` of a callback. -/
structure Call where
  cb : TimerEventCallback
  code : Int
deriving DecidableEq

/-- The queue entry `Zimer::TimerEventWrapper` (`zimer.h`, lines 130-134). -/
structure TimerEventWrapper where
  name : String
  abs_time_ms : Nat
  cb : TimerEventCallback
deriving DecidableEq

/-- The comparator `Zimer::cmp` (`zimer.h`, lines 135-139): `foo` is ordered
below `bar` in the max-heap when its deadline is later, which puts the
earliest deadline on top. -/
def cmp (foo bar : TimerEventWrapper) : Bool :=
  decide (foo.abs_time_ms > bar.abs_time_ms)

/-- The entry `top()` returns together with the queue `pop()` leaves, or `none`
on an empty queue.  The queue is the list of its entries in insertion order;
the top is an entry that `cmp` orders below no other entry.  Among entries
with the same deadline `std::priority_queue` leaves the choice open, and this
definition takes the oldest; the counterexamples below use distinct
deadlines. -/
def popTop : List TimerEventWrapper → Option (TimerEventWrapper × List TimerEventWrapper)
  | [] => none
  | e :: q =>
    match popTop q with
    | none => some (e, [])
    | some (m, r) => if cmp e m then some (m, e :: r) else some (e, q)

/-- The data members of `Zimer` that hold scheduler state (`zimer.h`, lines
144-145). -/
structure State where
  _tm_evt_que : List TimerEventWrapper
  _valid_tm_evt_keys : Finset String
deriving DecidableEq

/-- The state built by the constructor: empty queue, empty validity set. -/
def init : State := ⟨[], ∅⟩

/-- The method `Zimer::add` (`zimer.h`, lines 45-65): the result, the new state and the
calls made. -/
def add (curr_time_ms : Nat) (name : String) (abs_time_ms : Nat) (cb : TimerEventCallback)
    (s : State) : Bool × State × List Call :=
  if abs_time_ms ≤ curr_time_ms then
    (true, s, [⟨cb, 0⟩])
  else if name ∈ s._valid_tm_evt_keys then
    (false, s, [])
  else
    (true, ⟨s._tm_evt_que ++ [⟨name, abs_time_ms, cb⟩], insert name s._valid_tm_evt_keys⟩, [])

/-- The method `Zimer::remove` (`zimer.h`, lines 67-72). -/
def remove (name : String) (s : State) : State :=
  ⟨s._tm_evt_que, s._valid_tm_evt_keys.erase name⟩

/-- The method `Zimer::remove_if` (`zimer.h`, lines 74-87): every name of the set on which
`pred` answers true is erased. -/
def remove_if (pred : String → Bool) (s : State) : State :=
  ⟨s._tm_evt_que, s._valid_tm_evt_keys.filter (fun n => pred n = false)⟩

/-- The method `Zimer::size` (`zimer.h`, lines 89-91). -/
def size (s : State) : Nat := s._tm_evt_que.length

/-- The loop of `Zimer::clear` that pops until the queue is empty (`zimer.h`,
lines 97-99); `fuel` bounds the number of iterations. -/
def clear_loop : Nat → List TimerEventWrapper → List TimerEventWrapper
  | 0, q => q
  | fuel + 1, q =>
    match popTop q with
    | none => q
    | some (_, rest) => clear_loop fuel rest

/-- The method `Zimer::clear` (`zimer.h`, lines 93-101). -/
def clear (s : State) : State :=
  ⟨clear_loop s._tm_evt_que.length s._tm_evt_que, ∅⟩

/-- The sleep bound in force for the timed wait (`zimer.h`, line 108): the
polling ceiling on an empty queue, the bound kept from the last pass
otherwise. -/
def sleep_bound (s : State) (to_sleep_time_ms : Nat) : Nat :=
  if s._tm_evt_que.isEmpty then CONDVAR_TIMEOUT_MS else to_sleep_time_ms

/-- The wake-up predicate handed to `wait_for` (`zimer.h`, line 110). -/
def wake_pred (s : State) : Bool := !s._tm_evt_que.isEmpty

/-- The due-event loop of `Zimer::work_func_` (`zimer.h`, lines 112-125), with the clock
reading `curr_time_ms` the same in all its iterations: the state it leaves,
the value of `to_sleep_time_ms` it leaves and the calls it made.  `fuel` bounds
the number of iterations. -/
def work_loop : Nat → Nat → State → Nat → State × Nat × List Call
  | 0, _, s, to_sleep_time_ms => (s, to_sleep_time_ms, [])
  | fuel + 1, curr_time_ms, s, to_sleep_time_ms =>
    match popTop s._tm_evt_que with
    | none => (s, to_sleep_time_ms, [])
    | some (top_evt, rest) =>
      if top_evt.abs_time_ms ≤ curr_time_ms then
        let fired : List Call :=
          if top_evt.name ∈ s._valid_tm_evt_keys then [⟨top_evt.cb, 0⟩] else []
        let r := work_loop fuel curr_time_ms
          ⟨rest, s._valid_tm_evt_keys.erase top_evt.name⟩ to_sleep_time_ms
        (r.1, r.2.1, fired ++ r.2.2)
      else
        (s, (((top_evt.abs_time_ms : Int) - (curr_time_ms : Int)) % 2 ^ 64).toNat, [])

/-- One pass of the worker after it wakes (`zimer.h`, lines 112-125): the loop
run with one iteration available per queue entry. -/
def work_pass (curr_time_ms : Nat) (s : State) (to_sleep_time_ms : Nat) :
    State × Nat × List Call :=
  work_loop s._tm_evt_que.length curr_time_ms s to_sleep_time_ms

/-- The drain loop of the destructor (`zimer.h`, lines 35-41); `fuel` bounds
the number of iterations. -/
def drain_loop : Nat → State → State × List Call
  | 0, s => (s, [])
  | fuel + 1, s =>
    match popTop s._tm_evt_que with
    | none => (s, [])
    | some (top_evt, rest) =>
      let fired : List Call :=
        if top_evt.name ∈ s._valid_tm_evt_keys then [⟨top_evt.cb, 1⟩] else []
      let r := drain_loop fuel ⟨rest, s._valid_tm_evt_keys⟩
      (r.1, fired ++ r.2)

/-- The destructor `Zimer::~Zimer` once the worker is joined (`zimer.h`, lines
35-42): the drain, then the validity set is cleared. -/
def destructor (s : State) : State × List Call :=
  let r := drain_loop s._tm_evt_que.length s
  (⟨r.1._tm_evt_que, ∅⟩, r.2)

/-- An operation on the scheduler: a call of the public interface, or one pass
of the worker.  `add` and `work` carry the clock value they read. -/
inductive Op where
  | add (curr_time_ms : Nat) (name : String) (abs_time_ms : Nat) (cb : TimerEventCallback)
  | remove (name : String)
  | remove_if (pred : String → Bool)
  | clear
  | work (curr_time_ms : Nat)

/-- The effect of one operation: the new state and the calls made. -/
def step (op : Op) (s : State) : State × List Call :=
  match op with
  | .add curr_time_ms name abs_time_ms cb => (add curr_time_ms name abs_time_ms cb s).2
  | .remove name => (remove name s, [])
  | .remove_if pred => (remove_if pred s, [])
  | .clear => (clear s, [])
  | .work curr_time_ms =>
    let r := work_pass curr_time_ms s 0
    (r.1, r.2.2)

/-- The effect of a sequence of operations from state `s`: the final state and
all calls made, in order. -/
def run : List Op → State → State × List Call
  | [], s => (s, [])
  | op :: ops, s =>
    let r := step op s
    let r2 := run ops r.1
    (r2.1, r.2 ++ r2.2)

/-- A whole life of the scheduler from state `s`: the operations, then the
destructor. -/
def run_destroy (ops : List Op) (s : State) : State × List Call :=
  let r := run ops s
  let d := destructor r.1
  (d.1, r.2 ++ d.2)

/-- The number of invocations of callback `c` in a sequence of calls. -/
def invocations (c : TimerEventCallback) (calls : List Call) : Nat :=
  calls.countP (fun k => decide (k.cb = c))

/-- The number of queue entries that carry callback `c`. -/
def pending (c : TimerEventCallback) (q : List TimerEventWrapper) : Nat :=
  q.countP (fun e => decide (e.cb = c))

/-- Whether an operation is a call of `add` that passes callback `c`. -/
def Op.registers (c : TimerEventCallback) : Op → Bool
  | .add _ _ _ cb => decide (cb = c)
  | _ => false

/-- The number of calls of `add` in `ops` that pass callback `c`. -/
def registrations (c : TimerEventCallback) (ops : List Op) : Nat :=
  ops.countP (Op.registers c)

/-- The scenario of a cancelled name that is registered again: `add("a", 100, 1)`
at time 0, `remove("a")`, `add("a", 200, 2)` at time 0. -/
def reuse_ops : List Op :=
  [.add 0 "a" 100 1, .remove "a", .add 0 "a" 200 2]

/-- The entries the due-event loop of the worker pops (`zimer.h`, lines
112-125, the `pop()` of line 120), in the order it pops them. -/
def work_popped : Nat → Nat → List TimerEventWrapper → List TimerEventWrapper
  | 0, _, _ => []
  | fuel + 1, curr_time_ms, q =>
    match popTop q with
    | none => []
    | some (top_evt, rest) =>
      if top_evt.abs_time_ms ≤ curr_time_ms then
        top_evt :: work_popped fuel curr_time_ms rest
      else []

/-- The calls the worker owes for the entries `popped`, popped in this order
from validity set `valid`: the callback of an entry is called, with code 0,
exactly when its name is in the validity set at the moment the entry is
popped, and that set is `valid` without the names of the entries popped
before it. -/
def fired_calls (valid : Finset String) : List TimerEventWrapper → List Call
  | [] => []
  | e :: es =>
    (if e.name ∈ valid then [(⟨e.cb, 0⟩ : Call)] else []) ++ fired_calls (valid.erase e.name) es

/-- The entries whose callback the due-event loop of the worker calls
(`zimer.h`, line 117), in the order of the calls: `work_loop` with the entry
recorded in place of the call `top_evt.cb(0)`. -/
def work_loop_fired : Nat → Nat → State → List TimerEventWrapper
  | 0, _, _ => []
  | fuel + 1, curr_time_ms, s =>
    match popTop s._tm_evt_que with
    | none => []
    | some (top_evt, rest) =>
      if top_evt.abs_time_ms ≤ curr_time_ms then
        (if top_evt.name ∈ s._valid_tm_evt_keys then [top_evt] else [])
          ++ work_loop_fired fuel curr_time_ms ⟨rest, s._valid_tm_evt_keys.erase top_evt.name⟩
      else []

/-- The entries whose callback the worker calls during one operation: those of
the pass for `work`, none for a call of the public interface. -/
def step_fired (op : Op) (s : State) : List TimerEventWrapper :=
  match op with
  | .work curr_time_ms => work_loop_fired s._tm_evt_que.length curr_time_ms s
  | _ => []

/-- A step of an execution at the grain of the mutex.  A call of `add` is two
steps: `add_read` is lines 46-54, where the calling thread reads the clock and
either takes the immediate path or builds its entry `tm_evt`; `add_locked` is
lines 55-64, where a thread that built its entry takes the mutex.  Steps of
other threads can come between the two.  `remove`, `remove_if`, `clear` and a
worker pass are one step each, made with the mutex held. -/
inductive Event where
  | add_read (curr_time_ms : Nat) (name : String) (abs_time_ms : Nat) (cb : TimerEventCallback)
  | add_locked (name : String) (abs_time_ms : Nat) (cb : TimerEventCallback)
  | remove (name : String)
  | remove_if (pred : String → Bool)
  | clear
  | work (curr_time_ms : Nat)

/-- The scheduler together with the entries built by the calls of `add` that are
between line 54 and line 56: they have read the clock and have not taken the
mutex yet. -/
structure Exec where
  state : State
  waiting : List TimerEventWrapper

/-- The locked part of `add` (`zimer.h`, lines 55-64) for the entry `tm_evt`
built at lines 51-54: the result and the new state. -/
def add_locked (tm_evt : TimerEventWrapper) (s : State) : Bool × State :=
  if tm_evt.name ∈ s._valid_tm_evt_keys then
    (false, s)
  else
    (true, ⟨s._tm_evt_que ++ [tm_evt], insert tm_evt.name s._valid_tm_evt_keys⟩)

/-- The effect of one step of an execution: the new execution state and the
calls made.  An `add_locked` step for an entry that no call of `add` is
waiting with has no effect. -/
def exec_step (ev : Event) (x : Exec) : Exec × List Call :=
  match ev with
  | .add_read curr_time_ms name abs_time_ms cb =>
    if abs_time_ms ≤ curr_time_ms then
      (x, [⟨cb, 0⟩])
    else
      (⟨x.state, x.waiting ++ [⟨name, abs_time_ms, cb⟩]⟩, [])
  | .add_locked name abs_time_ms cb =>
    if (⟨name, abs_time_ms, cb⟩ : TimerEventWrapper) ∈ x.waiting then
      (⟨(add_locked ⟨name, abs_time_ms, cb⟩ x.state).2,
        x.waiting.erase ⟨name, abs_time_ms, cb⟩⟩, [])
    else
      (x, [])
  | .remove name => (⟨remove name x.state, x.waiting⟩, [])
  | .remove_if pred => (⟨remove_if pred x.state, x.waiting⟩, [])
  | .clear => (⟨clear x.state, x.waiting⟩, [])
  | .work curr_time_ms =>
    let r := work_pass curr_time_ms x.state 0
    (⟨r.1, x.waiting⟩, r.2.2)

/-- The effect of a sequence of steps from execution state `x`: the final
execution state and all calls made, in order. -/
def exec_run : List Event → Exec → Exec × List Call
  | [], x => (x, [])
  | ev :: evs, x =>
    let r := exec_step ev x
    let r2 := exec_run evs r.1
    (r2.1, r.2 ++ r2.2)

/-- The predicate `name starts with "tmp_"` of the `remove_if` scenario. -/
def starts_with_tmp (name : String) : Bool :=
  "tmp_".toList.isPrefixOf name.toList

/-- Whether the timed wait of the worker blocks at all (`zimer.h`, lines
109-110).  `wait_for(lk, rel_time, pred)` tests `pred()` before it waits and
returns at once when it holds, so the wait blocks exactly when the wake-up
predicate is false on entry. -/
def wait_for_blocks (s : State) : Bool := !wake_pred s

/-- No orphan valid names: every name of the validity set is the name of an
entry of the queue. -/
def no_orphans (s : State) : Prop :=
  ∀ n ∈ s._valid_tm_evt_keys, ∃ e ∈ s._tm_evt_que, e.name = n

/-- What a statement does as far as locking goes: it acquires `_mtx`, releases
`_mtx`, reads or writes `_tm_evt_que`, or reads or writes
`_valid_tm_evt_keys`. -/
inductive Access where
  | lock
  | unlock
  | que
  | keys
deriving DecidableEq

/-- Whether every access to the queue or the validity set in a sequence of
statements is made while the mutex is held; `held` tells whether the running
thread holds the mutex before the first statement. -/
def guarded : Bool → List Access → Bool
  | _, [] => true
  | _, .lock :: es => guarded true es
  | _, .unlock :: es => guarded false es
  | held, .que :: es => held && guarded held es
  | held, .keys :: es => held && guarded held es

/-- The statements of `add` (`zimer.h`, lines 45-65): nothing on the immediate
path; otherwise the lock of line 56, the `find` of line 57 and, for a fresh
name, the `insert` of line 60 and the `push` of line 61; the lock is released
where its scope ends, at the `return false` or at line 63. -/
def add_trace (curr_time_ms : Nat) (name : String) (abs_time_ms : Nat) (s : State) :
    List Access :=
  if abs_time_ms ≤ curr_time_ms then []
  else if name ∈ s._valid_tm_evt_keys then [.lock, .keys, .unlock]
  else [.lock, .keys, .keys, .que, .unlock]

/-- The statements of `remove` (`zimer.h`, lines 67-72). -/
def remove_trace : List Access := [.lock, .keys, .unlock]

/-- The statements of `remove_if` (`zimer.h`, lines 74-87): the lock, `begin()`,
then for each name of the set the test of line 79, the `*iter` of line 80 and
the `erase` or the `++iter`, then the last test of line 79. -/
def remove_if_trace (s : State) : List Access :=
  [.lock, .keys] ++ (List.replicate s._valid_tm_evt_keys.card [Access.keys, .keys, .keys]).flatten
    ++ [.keys, .unlock]

/-- The statement of `size` (`zimer.h`, line 90). -/
def size_trace : List Access := [.que]

/-- The statements of the loop of `clear` (`zimer.h`, lines 97-99): the test and
the `pop()` for each entry, then the test that ends the loop. -/
def clear_loop_trace : Nat → List TimerEventWrapper → List Access
  | 0, _ => [.que]
  | fuel + 1, q =>
    match popTop q with
    | none => [.que]
    | some (_, rest) => [.que, .que] ++ clear_loop_trace fuel rest

/-- The statements of `clear` (`zimer.h`, lines 93-101). -/
def clear_trace (s : State) : List Access :=
  [.lock, .keys] ++ clear_loop_trace s._tm_evt_que.length s._tm_evt_que ++ [.unlock]

/-- The statements of the due-event loop of the worker (`zimer.h`, lines
112-125): the test of line 112 and the `top()` of line 114, then for a due
entry the `find` of line 116, the `erase` of line 119 and the `pop()` of
line 120. -/
def work_loop_trace : Nat → Nat → State → List Access
  | 0, _, _ => [.que]
  | fuel + 1, curr_time_ms, s =>
    match popTop s._tm_evt_que with
    | none => [.que]
    | some (top_evt, rest) =>
      if top_evt.abs_time_ms ≤ curr_time_ms then
        [.que, .que, .keys, .keys, .que]
          ++ work_loop_trace fuel curr_time_ms ⟨rest, s._valid_tm_evt_keys.erase top_evt.name⟩
      else [.que, .que]

/-- The statements of one iteration of the worker (`zimer.h`, lines 106-126),
entered in state `s0` and woken in state `s`: the lock of line 107, the test
of line 108, the wake-up predicate of line 110, which `wait_for` evaluates
with the mutex held; a wait that blocks releases the mutex, takes it again
and evaluates the predicate again; then the due-event loop; the lock is
released at line 126. -/
def work_func_trace (s0 : State) (curr_time_ms : Nat) (s : State) : List Access :=
  [.lock, .que, .que] ++ (if wait_for_blocks s0 then [.unlock, .lock, .que] else [])
    ++ work_loop_trace s._tm_evt_que.length curr_time_ms s ++ [.unlock]

/-- The statements of the drain loop of the destructor (`zimer.h`, lines
35-41): the test of line 35, the `top()` of line 36, the `find` of line 37 and
the `pop()` of line 40 for each entry, then the test that ends the loop. -/
def drain_loop_trace : Nat → List TimerEventWrapper → List Access
  | 0, _ => [.que]
  | fuel + 1, q =>
    match popTop q with
    | none => [.que]
    | some (_, rest) => [.que, .que, .keys, .que] ++ drain_loop_trace fuel rest

/-- The statements of the destructor once the worker is joined (`zimer.h`, lines
35-42): the drain loop, then the `clear()` of line 42.  No statement of the
destructor takes the mutex. -/
def destructor_trace (s : State) : List Access :=
  drain_loop_trace s._tm_evt_que.length s._tm_evt_que ++ [.keys]

/-- Whether a sequence of statements neither acquires nor releases the mutex. -/
def only_accesses (es : List Access) : Bool :=
  es.all (fun e => decide (e = .que) || decide (e = .keys))

/-! ## The priority queue -/

theorem popTop_eq_none {q : List TimerEventWrapper} : popTop q = none ↔ q = [] := by
  cases q with
  | nil => simp [popTop]
  | cons e q =>
    simp only [popTop]
    cases popTop q with
    | none => simp
    | some p => by_cases h : cmp e p.1 = true <;> simp [h]

theorem popTop_perm {q : List TimerEventWrapper} {m : TimerEventWrapper}
    {r : List TimerEventWrapper} (h : popTop q = some (m, r)) : q.Perm (m :: r) := by
  induction q generalizing m r with
  | nil => simp [popTop] at h
  | cons e q ih =>
    simp only [popTop] at h
    cases hq : popTop q with
    | none =>
      rw [hq] at h
      simp only [Option.some.injEq, Prod.mk.injEq] at h
      obtain ⟨rfl, rfl⟩ := h
      rw [popTop_eq_none.mp hq]
    | some p =>
      obtain ⟨m2, r2⟩ := p
      rw [hq] at h
      by_cases hc : cmp e m2 = true
      · simp only [hc, if_true, Option.some.injEq, Prod.mk.injEq] at h
        obtain ⟨rfl, rfl⟩ := h
        exact ((ih hq).cons e).trans (List.Perm.swap _ _ _)
      · simp only [hc, Option.some.injEq, Prod.mk.injEq] at h
        obtain ⟨rfl, rfl⟩ := h
        exact List.Perm.refl _

theorem popTop_length {q : List TimerEventWrapper} {m : TimerEventWrapper}
    {r : List TimerEventWrapper} (h : popTop q = some (m, r)) : r.length + 1 = q.length := by
  have := (popTop_perm h).length_eq
  simpa using this.symm

theorem clear_loop_nil (fuel : Nat) (q : List TimerEventWrapper) (h : q.length ≤ fuel) :
    clear_loop fuel q = [] := by
  induction fuel generalizing q with
  | zero =>
    have : q = [] := List.length_eq_zero.mp (Nat.le_zero.mp h)
    simp [clear_loop, this]
  | succ n ih =>
    simp only [clear_loop]
    cases hq : popTop q with
    | none => simpa using popTop_eq_none.mp hq
    | some p =>
      obtain ⟨m, r⟩ := p
      have := popTop_length hq
      exact ih r (by omega)

theorem clear_eq_init (s : State) : clear s = init := by
  simp [clear, init, clear_loop_nil]

theorem popTop_min {q : List TimerEventWrapper} {m : TimerEventWrapper}
    {r : List TimerEventWrapper} (h : popTop q = some (m, r)) :
    ∀ x ∈ r, m.abs_time_ms ≤ x.abs_time_ms := by
  induction q generalizing m r with
  | nil => simp [popTop] at h
  | cons e q ih =>
    simp only [popTop] at h
    cases hq : popTop q with
    | none =>
      rw [hq] at h
      simp only [Option.some.injEq, Prod.mk.injEq] at h
      obtain ⟨rfl, rfl⟩ := h
      simp
    | some p =>
      obtain ⟨m2, r2⟩ := p
      rw [hq] at h
      by_cases hc : cmp e m2 = true
      · simp only [hc, if_true, Option.some.injEq, Prod.mk.injEq] at h
        obtain ⟨rfl, rfl⟩ := h
        intro x hx
        rcases List.mem_cons.mp hx with rfl | hx
        · simp only [cmp, decide_eq_true_eq] at hc
          omega
        · exact ih hq x hx
      · simp only [hc, Option.some.injEq, Prod.mk.injEq] at h
        obtain ⟨rfl, rfl⟩ := h
        intro x hx
        simp only [cmp, decide_eq_true_eq] at hc
        rcases List.mem_cons.mp ((popTop_perm hq).subset hx) with rfl | hx2
        · omega
        · have := ih hq x hx2
          omega

/-! ## Counting calls and queue entries -/

theorem invocations_append (c : TimerEventCallback) (a b : List Call) :
    invocations c (a ++ b) = invocations c a + invocations c b := by
  simp [invocations, List.countP_append]

theorem pending_popTop (c : TimerEventCallback) {q : List TimerEventWrapper}
    {m : TimerEventWrapper} {r : List TimerEventWrapper} (h : popTop q = some (m, r)) :
    pending c q = pending c [m] + pending c r := by
  unfold pending
  rw [(popTop_perm h).countP_eq, List.countP_cons]
  simp [List.countP_cons, Nat.add_comm]

theorem work_loop_count (c : TimerEventCallback) (fuel curr_time_ms : Nat) (s : State)
    (to_sleep_time_ms : Nat) :
    invocations c (work_loop fuel curr_time_ms s to_sleep_time_ms).2.2
      + pending c (work_loop fuel curr_time_ms s to_sleep_time_ms).1._tm_evt_que
      ≤ pending c s._tm_evt_que := by
  induction fuel generalizing s with
  | zero => simp [work_loop, invocations]
  | succ n ih =>
    simp only [work_loop]
    cases hq : popTop s._tm_evt_que with
    | none => simp [invocations]
    | some p =>
      obtain ⟨m, r⟩ := p
      simp only []
      by_cases hdue : m.abs_time_ms ≤ curr_time_ms
      · simp only [hdue, if_true]
        have hrec := ih ⟨r, s._valid_tm_evt_keys.erase m.name⟩
        simp only [] at hrec
        rw [invocations_append, pending_popTop c hq]
        have hf : invocations c (if m.name ∈ s._valid_tm_evt_keys then [⟨m.cb, 0⟩] else [])
            ≤ pending c [m] := by
          by_cases hv : m.name ∈ s._valid_tm_evt_keys <;>
            simp [hv, invocations, pending, List.countP_cons]
        omega
      · simp [hdue, invocations]

theorem drain_loop_count (c : TimerEventCallback) (fuel : Nat) (s : State) :
    invocations c (drain_loop fuel s).2 ≤ pending c s._tm_evt_que := by
  induction fuel generalizing s with
  | zero => simp [drain_loop, invocations]
  | succ n ih =>
    simp only [drain_loop]
    cases hq : popTop s._tm_evt_que with
    | none => simp [invocations]
    | some p =>
      obtain ⟨m, r⟩ := p
      simp only []
      have hrec := ih ⟨r, s._valid_tm_evt_keys⟩
      rw [invocations_append, pending_popTop c hq]
      have hf : invocations c (if m.name ∈ s._valid_tm_evt_keys then [⟨m.cb, 1⟩] else [])
          ≤ pending c [m] := by
        by_cases hv : m.name ∈ s._valid_tm_evt_keys <;>
          simp [hv, invocations, pending, List.countP_cons]
      simp only [] at hrec
      omega

theorem step_count (c : TimerEventCallback) (op : Op) (s : State) :
    invocations c (step op s).2 + pending c (step op s).1._tm_evt_que
      ≤ pending c s._tm_evt_que + (if op.registers c = true then 1 else 0) := by
  cases op with
  | add curr_time_ms name abs_time_ms cb =>
    simp only [step, add, Op.registers]
    by_cases h1 : abs_time_ms ≤ curr_time_ms
    · by_cases hc : cb = c <;> simp [h1, hc, invocations, List.countP_cons, Nat.add_comm]
    · by_cases h2 : name ∈ s._valid_tm_evt_keys
      · simp [h1, h2, invocations]
      · by_cases hc : cb = c <;>
          simp [h1, h2, hc, invocations, pending, List.countP_append, List.countP_cons]
  | remove name => simp [step, remove, invocations, Op.registers]
  | remove_if pred => simp [step, remove_if, invocations, Op.registers]
  | clear => simp [step, clear_eq_init, init, invocations, pending, Op.registers]
  | work curr_time_ms =>
    simp only [step, work_pass, Op.registers]
    have := work_loop_count c s._tm_evt_que.length curr_time_ms s 0
    simpa using this

theorem run_count (c : TimerEventCallback) (ops : List Op) (s : State) :
    invocations c (run ops s).2 + pending c (run ops s).1._tm_evt_que
      ≤ pending c s._tm_evt_que + registrations c ops := by
  induction ops generalizing s with
  | nil => simp [run, invocations, registrations]
  | cons op ops ih =>
    simp only [run, registrations, List.countP_cons]
    have h1 := step_count c op s
    have h2 := ih (step op s).1
    rw [invocations_append]
    simp only [registrations] at h2
    omega

theorem run_destroy_count (c : TimerEventCallback) (ops : List Op) (s : State) :
    invocations c (run_destroy ops s).2 ≤ pending c s._tm_evt_que + registrations c ops := by
  simp only [run_destroy, destructor]
  rw [invocations_append]
  have h1 := run_count c ops s
  have h2 := drain_loop_count c (run ops s).1._tm_evt_que.length (run ops s).1
  omega

/-! ## The drain of the destructor -/

theorem drain_loop_spec (fuel : Nat) (s : State) (h : s._tm_evt_que.length ≤ fuel) :
    ∃ order : List TimerEventWrapper,
      order.Perm s._tm_evt_que ∧
      order.Pairwise (fun a b => a.abs_time_ms ≤ b.abs_time_ms) ∧
      (drain_loop fuel s).2
        = (order.filter (fun e => decide (e.name ∈ s._valid_tm_evt_keys))).map
            (fun e => (⟨e.cb, 1⟩ : Call)) ∧
      (drain_loop fuel s).1 = ⟨[], s._valid_tm_evt_keys⟩ := by
  induction fuel generalizing s with
  | zero =>
    have hnil : s._tm_evt_que = [] := List.length_eq_zero.mp (Nat.le_zero.mp h)
    refine ⟨[], ?_, List.Pairwise.nil, ?_, ?_⟩
    · rw [hnil]
    · simp [drain_loop]
    · cases s
      simp only [drain_loop]
      simp only [] at hnil
      rw [hnil]
  | succ n ih =>
    simp only [drain_loop]
    cases hq : popTop s._tm_evt_que with
    | none =>
      have hnil := popTop_eq_none.mp hq
      refine ⟨[], ?_, List.Pairwise.nil, ?_, ?_⟩
      · rw [hnil]
      · simp
      · cases s
        simp only [] at hnil
        simp only []
        rw [hnil]
    | some p =>
      obtain ⟨m, r⟩ := p
      have hlen := popTop_length hq
      obtain ⟨order, hperm, hsorted, hcalls, hstate⟩ :=
        ih ⟨r, s._valid_tm_evt_keys⟩ (by simp only []; omega)
      simp only [] at hperm hcalls hstate
      refine ⟨m :: order, ?_, ?_, ?_, ?_⟩
      · exact (hperm.cons m).trans (popTop_perm hq).symm
      · refine List.Pairwise.cons ?_ hsorted
        intro x hx
        exact popTop_min hq x (hperm.subset hx)
      · simp only [hcalls]
        by_cases hv : m.name ∈ s._valid_tm_evt_keys <;> simp [hv, List.filter_cons]
      · simpa using hstate

/-! ## The operation `add` -/

/-- C1. Immediate path of `add`: when the deadline is at or before the clock
value `add` reads, `add` returns true, makes exactly the one call `cb(0)` and
leaves the queue and the validity set as they were, whether or not the name is
in the validity set. -/
theorem add_immediate (s : State) (curr_time_ms : Nat) (name : String) (abs_time_ms : Nat)
    (cb : TimerEventCallback) (h : abs_time_ms ≤ curr_time_ms) :
    add curr_time_ms name abs_time_ms cb s = (true, s, [⟨cb, 0⟩]) := by
  simp [add, h]

theorem add_immediate_witness :
    (5 ≤ 10 ∧ "a" ∈ ({"a"} : Finset String)) ∧
      add 10 "a" 5 7 ⟨[⟨"a", 100, 1⟩], {"a"}⟩
        = (true, ⟨[⟨"a", 100, 1⟩], {"a"}⟩, [⟨7, 0⟩]) :=
  ⟨by decide, add_immediate ⟨[⟨"a", 100, 1⟩], {"a"}⟩ 10 "a" 5 7 (by decide)⟩

/-- C2. Duplicate registration is rejected atomically: with a future deadline
and a name that is in the validity set, `add` returns false, makes no call and
leaves the queue and the validity set exactly as they were. -/
theorem add_duplicate (s : State) (curr_time_ms : Nat) (name : String) (abs_time_ms : Nat)
    (cb : TimerEventCallback) (hfuture : curr_time_ms < abs_time_ms)
    (hdup : name ∈ s._valid_tm_evt_keys) :
    add curr_time_ms name abs_time_ms cb s = (false, s, []) := by
  simp [add, Nat.not_le.mpr hfuture, hdup]

theorem add_duplicate_witness :
    (0 < 200 ∧ "a" ∈ ({"a"} : Finset String)) ∧
      add 0 "a" 200 2 ⟨[⟨"a", 100, 1⟩], {"a"}⟩ = (false, ⟨[⟨"a", 100, 1⟩], {"a"}⟩, []) :=
  ⟨by decide, add_duplicate ⟨[⟨"a", 100, 1⟩], {"a"}⟩ 0 "a" 200 2 (by decide) (by decide)⟩

/-- C3, as stated, fails: after `add("a", 100, 1)` at time 0 the name `"a"` is in
the validity set, and `add("a", 50, 2)` at time 60 takes the immediate path and
returns true. -/
theorem add_false_iff_valid_counterexample :
    ¬ ((add 60 "a" 50 2 (add 0 "a" 100 1 init).2.1).1 = false ↔
        "a" ∈ (add 0 "a" 100 1 init).2.1._valid_tm_evt_keys) := by
  decide

/-- C3, amended. `add` returns false exactly when the deadline is after the
clock value it reads and the name is in the validity set at the time of the
call. -/
theorem add_false_iff (s : State) (curr_time_ms : Nat) (name : String) (abs_time_ms : Nat)
    (cb : TimerEventCallback) :
    (add curr_time_ms name abs_time_ms cb s).1 = false ↔
      (curr_time_ms < abs_time_ms ∧ name ∈ s._valid_tm_evt_keys) := by
  unfold add
  by_cases h1 : abs_time_ms ≤ curr_time_ms
  · simp [h1]
  · by_cases h2 : name ∈ s._valid_tm_evt_keys
    · simp [h1, h2, Nat.not_le.mp h1]
    · simp [h1, h2]

/-- C4. Successful deferred `add`: with a future deadline and a name that is not
in the validity set, `add` returns true, makes no call, the validity set
becomes the old set plus the name, the queue becomes, as a multiset, the old
queue plus the one entry `(name, deadline, cb)`, and `size()` grows by one. -/
theorem add_deferred (s : State) (curr_time_ms : Nat) (name : String) (abs_time_ms : Nat)
    (cb : TimerEventCallback) (hfuture : curr_time_ms < abs_time_ms)
    (hfresh : name ∉ s._valid_tm_evt_keys) :
    (add curr_time_ms name abs_time_ms cb s).1 = true ∧
    (add curr_time_ms name abs_time_ms cb s).2.2 = [] ∧
    (add curr_time_ms name abs_time_ms cb s).2.1._valid_tm_evt_keys
      = insert name s._valid_tm_evt_keys ∧
    ((add curr_time_ms name abs_time_ms cb s).2.1._tm_evt_que : Multiset TimerEventWrapper)
      = (⟨name, abs_time_ms, cb⟩ : TimerEventWrapper) ::ₘ (s._tm_evt_que : Multiset _) ∧
    size (add curr_time_ms name abs_time_ms cb s).2.1 = size s + 1 := by
  simp [add, Nat.not_le.mpr hfuture, hfresh, size]

theorem add_deferred_witness :
    (0 < 200 ∧ "b" ∉ ({"a"} : Finset String)) ∧
      (add 0 "b" 200 2 ⟨[⟨"a", 100, 1⟩], {"a"}⟩).1 = true ∧
      (add 0 "b" 200 2 ⟨[⟨"a", 100, 1⟩], {"a"}⟩).2.2 = [] ∧
      (add 0 "b" 200 2 ⟨[⟨"a", 100, 1⟩], {"a"}⟩).2.1._valid_tm_evt_keys
        = insert "b" ({"a"} : Finset String) ∧
      ((add 0 "b" 200 2 ⟨[⟨"a", 100, 1⟩], {"a"}⟩).2.1._tm_evt_que : Multiset TimerEventWrapper)
        = (⟨"b", 200, 2⟩ : TimerEventWrapper) ::ₘ (([⟨"a", 100, 1⟩] : List TimerEventWrapper) : Multiset _) ∧
      size (add 0 "b" 200 2 ⟨[⟨"a", 100, 1⟩], {"a"}⟩).2.1 = size ⟨[⟨"a", 100, 1⟩], {"a"}⟩ + 1 :=
  ⟨by decide, add_deferred ⟨[⟨"a", 100, 1⟩], {"a"}⟩ 0 "b" 200 2 (by decide) (by decide)⟩

/-! ## Cancellation, firing and destruction over whole runs -/

/-- C5, the code at the failing input. `add("a", 100, 1)` at time 0 is accepted and
pending when `remove("a")` is called; after `add("a", 200, 2)` at time 0 puts
the name back in the validity set, the stale entry with callback 1 is still in
the queue, the worker pass at time 100 calls callback 1 with code 0, and
without that pass the destructor calls it with code 1. -/
theorem removed_timer_fires_after_reuse :
    add 0 "a" 100 1 init = (true, ⟨[⟨"a", 100, 1⟩], {"a"}⟩, []) ∧
    (run reuse_ops init).1 = ⟨[⟨"a", 100, 1⟩, ⟨"a", 200, 2⟩], {"a"}⟩ ∧
    (step (.work 100) (run reuse_ops init).1).2 = [⟨1, 0⟩] ∧
    (run_destroy reuse_ops init).2 = [⟨1, 1⟩, ⟨2, 1⟩] := by
  decide

/-- C6, the code at the failing input. After `add("a", 100, 1)` at time 0 and
`remove("a")`, the call `add("a", 200, 2)` at time 0 has a future deadline and a
name outside the validity set, and returns true; no cancellation follows.  The
worker pass at time 100 fires the stale entry and erases `"a"`, the pass at
time 200 discards the new entry, and the destructor finds an empty queue:
callback 2 is never invoked. -/
theorem reused_name_registration_lost :
    "a" ∉ (run [.add 0 "a" 100 1, .remove "a"] init).1._valid_tm_evt_keys ∧
    (add 0 "a" 200 2 (run [.add 0 "a" 100 1, .remove "a"] init).1).1 = true ∧
    (run (reuse_ops ++ [.work 100]) init).1 = ⟨[⟨"a", 200, 2⟩], ∅⟩ ∧
    (run_destroy (reuse_ops ++ [.work 100, .work 200]) init).2 = [⟨1, 0⟩] ∧
    invocations 2 (run_destroy (reuse_ops ++ [.work 100, .work 200]) init).2 = 0 := by
  decide

/-- C7. No event fires more than once: over every run from the empty scheduler
that ends with the destructor, and already over the run before the destructor,
a callback is invoked at most as many times as `add` was called with it;
when every call of `add` passes a callback of its own, each is invoked at most
once across the immediate path, the worker passes and the drain. -/
theorem fires_at_most_once (ops : List Op) (c : TimerEventCallback) :
    invocations c (run ops init).2 ≤ registrations c ops ∧
    invocations c (run_destroy ops init).2 ≤ registrations c ops := by
  have h1 := run_count c ops init
  have h2 := run_destroy_count c ops init
  have h0 : pending c init._tm_evt_que = 0 := by simp [init, pending]
  omega

/-- C8, the code at the failing input. After `add("a", 100, 1)`, `remove("a")`,
`add("a", 200, 2)` the validity set holds the one name `"a"`, and the drain makes
two calls: callback 1, whose registration `remove` cancelled, and callback 2. -/
theorem drain_fires_cancelled_entry :
    (run reuse_ops init).1._valid_tm_evt_keys = {"a"} ∧
    (run reuse_ops init).1._valid_tm_evt_keys.card = 1 ∧
    (destructor (run reuse_ops init).1).2 = [⟨1, 1⟩, ⟨2, 1⟩] ∧
    (destructor (run reuse_ops init).1).2.length = 2 := by
  decide

/-- C9. Drain step semantics of the destructor: from every state the drain pops
every queue entry (in ascending deadline order), calls the callback of exactly
the popped entries whose name is in the validity set, always with code 1, and
leaves the queue and the validity set empty.  In the scenario of one
registration `("x", now + 10000, cb)` followed by destruction, `add` returns
true and the destructor makes the one call `cb(1)`. -/
theorem destructor_drain :
    (∀ s : State, ∃ order : List TimerEventWrapper,
      order.Perm s._tm_evt_que ∧
      order.Pairwise (fun a b => a.abs_time_ms ≤ b.abs_time_ms) ∧
      (destructor s).2
        = (order.filter (fun e => decide (e.name ∈ s._valid_tm_evt_keys))).map
            (fun e => (⟨e.cb, 1⟩ : Call)) ∧
      (∀ k ∈ (destructor s).2, k.code = 1) ∧
      (destructor s).1._tm_evt_que = [] ∧
      (destructor s).1._valid_tm_evt_keys = ∅) ∧
    (∀ (now : Nat) (cb : TimerEventCallback),
      (add now "x" (now + 10000) cb init).1 = true ∧
      (add now "x" (now + 10000) cb init).2.2 = [] ∧
      destructor (add now "x" (now + 10000) cb init).2.1 = (init, [⟨cb, 1⟩])) := by
  constructor
  · intro s
    obtain ⟨order, hperm, hsorted, hcalls, hstate⟩ :=
      drain_loop_spec s._tm_evt_que.length s (Nat.le_refl _)
    refine ⟨order, hperm, hsorted, ?_, ?_, ?_, ?_⟩
    · simpa [destructor] using hcalls
    · intro k hk
      simp only [destructor, hcalls, List.mem_map] at hk
      obtain ⟨e, _, rfl⟩ := hk
      rfl
    · simp [destructor, hstate]
    · simp [destructor]
  · intro now cb
    simp [add, init, destructor, drain_loop, popTop]

/-- C10. `clear` is a silent hard reset: from every state it makes no call and
leaves the queue and the validity set empty, which is the state of a fresh
scheduler; whatever operations follow, up to and including the destructor,
behave as on a fresh scheduler, and a callback is invoked at most as many
times as `add` is called with it after the `clear`, so a callback passed only
to registrations made before the `clear` is never invoked. -/
theorem clear_hard_reset (s : State) (ops : List Op) (c : TimerEventCallback) :
    (step .clear s).2 = [] ∧
    (clear s)._tm_evt_que = [] ∧
    (clear s)._valid_tm_evt_keys = ∅ ∧
    run_destroy ops (clear s) = run_destroy ops init ∧
    invocations c (run ops (clear s)).2 ≤ registrations c ops ∧
    invocations c (run_destroy ops (clear s)).2 ≤ registrations c ops := by
  have h1 := run_count c ops init
  have h2 := run_destroy_count c ops init
  have h0 : pending c init._tm_evt_que = 0 := by simp [init, pending]
  rw [clear_eq_init]
  refine ⟨by simp [step], by simp [init], by simp [init], rfl, ?_, ?_⟩ <;> omega

/-! ## One pass of the worker -/

theorem popTop_filter (p : TimerEventWrapper → Bool) {q : List TimerEventWrapper}
    {m : TimerEventWrapper} {r : List TimerEventWrapper} (h : popTop q = some (m, r))
    (hm : p m = false) : r.filter p = q.filter p := by
  induction q generalizing m r with
  | nil => simp [popTop] at h
  | cons e q ih =>
    simp only [popTop] at h
    cases hq : popTop q with
    | none =>
      rw [hq] at h
      simp only [Option.some.injEq, Prod.mk.injEq] at h
      obtain ⟨rfl, rfl⟩ := h
      simp [popTop_eq_none.mp hq, hm]
    | some p2 =>
      obtain ⟨m2, r2⟩ := p2
      rw [hq] at h
      by_cases hc : cmp e m2 = true
      · simp only [hc, if_true, Option.some.injEq, Prod.mk.injEq] at h
        obtain ⟨rfl, rfl⟩ := h
        simp only [List.filter_cons, ih hq hm]
      · simp only [hc, Option.some.injEq, Prod.mk.injEq] at h
        obtain ⟨rfl, rfl⟩ := h
        simp [List.filter_cons, hm]

theorem popTop_le {q : List TimerEventWrapper} {m : TimerEventWrapper}
    {r : List TimerEventWrapper} (h : popTop q = some (m, r)) :
    ∀ x ∈ q, m.abs_time_ms ≤ x.abs_time_ms := by
  intro x hx
  rcases List.mem_cons.mp ((popTop_perm h).subset hx) with rfl | hx2
  · exact Nat.le_refl _
  · exact popTop_min h x hx2

theorem work_loop_spec (fuel curr_time_ms : Nat) (s : State) (to_sleep_time_ms : Nat)
    (h : s._tm_evt_que.length ≤ fuel) :
    (work_loop fuel curr_time_ms s to_sleep_time_ms).1._tm_evt_que
      = s._tm_evt_que.filter (fun e => decide (curr_time_ms < e.abs_time_ms)) ∧
    (work_popped fuel curr_time_ms s._tm_evt_que).Perm
      (s._tm_evt_que.filter (fun e => decide (e.abs_time_ms ≤ curr_time_ms))) ∧
    (work_popped fuel curr_time_ms s._tm_evt_que).Pairwise
      (fun a b => a.abs_time_ms ≤ b.abs_time_ms) ∧
    (work_loop fuel curr_time_ms s to_sleep_time_ms).2.2
      = fired_calls s._valid_tm_evt_keys (work_popped fuel curr_time_ms s._tm_evt_que) ∧
    (work_loop fuel curr_time_ms s to_sleep_time_ms).1._valid_tm_evt_keys
      = s._valid_tm_evt_keys \
          ((work_popped fuel curr_time_ms s._tm_evt_que).map (fun e => e.name)).toFinset := by
  induction fuel generalizing s with
  | zero =>
    have hnil : s._tm_evt_que = [] := List.length_eq_zero.mp (Nat.le_zero.mp h)
    simp [work_loop, work_popped, hnil, fired_calls]
  | succ n ih =>
    simp only [work_loop, work_popped]
    cases hq : popTop s._tm_evt_que with
    | none =>
      have hnil := popTop_eq_none.mp hq
      simp [hnil, fired_calls]
    | some p =>
      obtain ⟨m, r⟩ := p
      have hlen := popTop_length hq
      simp only []
      by_cases hdue : m.abs_time_ms ≤ curr_time_ms
      · simp only [hdue, if_true]
        obtain ⟨h1, h2, h3, h4, h5⟩ :=
          ih ⟨r, s._valid_tm_evt_keys.erase m.name⟩ (by simp only []; omega)
        simp only [] at h1 h2 h3 h4 h5
        refine ⟨?_, ?_, ?_, ?_, ?_⟩
        · rw [h1]
          exact popTop_filter _ hq (by simpa using hdue)
        · have hp := (popTop_perm hq).filter
            (fun e => decide (e.abs_time_ms ≤ curr_time_ms))
          have hc : (m :: r).filter (fun e => decide (e.abs_time_ms ≤ curr_time_ms))
              = m :: r.filter (fun e => decide (e.abs_time_ms ≤ curr_time_ms)) := by
            simp [List.filter_cons, hdue]
          rw [hc] at hp
          exact (h2.cons m).trans hp.symm
        · refine List.Pairwise.cons ?_ h3
          intro x hx
          have hx2 : x ∈ r := (List.mem_filter.mp (h2.subset hx)).1
          exact popTop_min hq x hx2
        · rw [h4]
          simp [fired_calls]
        · rw [h5]
          ext x
          simp only [Finset.mem_sdiff, Finset.mem_erase, List.map_cons, List.toFinset_cons,
            Finset.mem_insert, List.mem_toFinset]
          tauto
      · simp only [hdue, if_false]
        have hall : ∀ x ∈ s._tm_evt_que, curr_time_ms < x.abs_time_ms := by
          intro x hx
          have := popTop_le hq x hx
          omega
        refine ⟨?_, ?_, List.Pairwise.nil, ?_, ?_⟩
        · symm
          rw [List.filter_eq_self]
          intro x hx
          simpa using hall x hx
        · have : s._tm_evt_que.filter (fun e => decide (e.abs_time_ms ≤ curr_time_ms)) = [] := by
            rw [List.filter_eq_nil_iff]
            intro x hx
            have := hall x hx
            simp only [decide_eq_true_eq]
            omega
          rw [this]
        · simp [fired_calls]
        · simp

/-- C11. Worker pass postcondition: from every state, with the clock value held
fixed, one pass leaves in the queue exactly the prior entries with deadline
after the clock value; the entries it pops are exactly the prior entries with
deadline at or before it, taken in ascending deadline order; the callback of
a popped entry is called, with code 0, exactly when its name is in the
validity set at the moment it is popped; the validity set afterwards is the
prior set minus the names of all popped entries. -/
theorem work_pass_postcondition (s : State) (curr_time_ms to_sleep_time_ms : Nat) :
    ∃ popped : List TimerEventWrapper,
      popped.Perm (s._tm_evt_que.filter (fun e => decide (e.abs_time_ms ≤ curr_time_ms))) ∧
      popped.Pairwise (fun a b => a.abs_time_ms ≤ b.abs_time_ms) ∧
      (work_pass curr_time_ms s to_sleep_time_ms).1._tm_evt_que
        = s._tm_evt_que.filter (fun e => decide (curr_time_ms < e.abs_time_ms)) ∧
      (work_pass curr_time_ms s to_sleep_time_ms).2.2
        = fired_calls s._valid_tm_evt_keys popped ∧
      (work_pass curr_time_ms s to_sleep_time_ms).1._valid_tm_evt_keys
        = s._valid_tm_evt_keys \ (popped.map (fun e => e.name)).toFinset := by
  obtain ⟨h1, h2, h3, h4, h5⟩ :=
    work_loop_spec s._tm_evt_que.length curr_time_ms s to_sleep_time_ms (Nat.le_refl _)
  exact ⟨work_popped s._tm_evt_que.length curr_time_ms s._tm_evt_que, h2, h3, h1, h4, h5⟩

/-! ## The order in which the worker fires -/

theorem work_loop_calls_eq (fuel curr_time_ms : Nat) (s : State) (to_sleep_time_ms : Nat) :
    (work_loop fuel curr_time_ms s to_sleep_time_ms).2.2
      = (work_loop_fired fuel curr_time_ms s).map (fun e => (⟨e.cb, 0⟩ : Call)) := by
  induction fuel generalizing s with
  | zero => simp [work_loop, work_loop_fired]
  | succ n ih =>
    simp only [work_loop, work_loop_fired]
    cases hq : popTop s._tm_evt_que with
    | none => simp
    | some p =>
      obtain ⟨m, r⟩ := p
      simp only []
      by_cases hdue : m.abs_time_ms ≤ curr_time_ms
      · simp only [hdue, if_true, ih, List.map_append]
        by_cases hv : m.name ∈ s._valid_tm_evt_keys <;> simp [hv]
      · simp [hdue]

theorem add_locked_eq_add (curr_time_ms : Nat) (name : String) (abs_time_ms : Nat)
    (cb : TimerEventCallback) (s : State) (h : curr_time_ms < abs_time_ms) :
    add curr_time_ms name abs_time_ms cb s
      = ((add_locked ⟨name, abs_time_ms, cb⟩ s).1, (add_locked ⟨name, abs_time_ms, cb⟩ s).2, []) := by
  unfold add add_locked
  by_cases hv : name ∈ s._valid_tm_evt_keys <;> simp [Nat.not_le.mpr h, hv]

theorem exec_add_eq_add (curr_time_ms : Nat) (name : String) (abs_time_ms : Nat)
    (cb : TimerEventCallback) (s : State) :
    exec_run [.add_read curr_time_ms name abs_time_ms cb, .add_locked name abs_time_ms cb] ⟨s, []⟩
      = (⟨(add curr_time_ms name abs_time_ms cb s).2.1, []⟩,
          (add curr_time_ms name abs_time_ms cb s).2.2) := by
  by_cases h : abs_time_ms ≤ curr_time_ms
  · simp [exec_run, exec_step, add, h]
  · simp [exec_run, exec_step, add_locked_eq_add _ _ _ _ _ (Nat.not_le.mp h), h]

/-- C13, the code at the failing input. After `add("a", 100, 1)`, `remove("a")`,
`add("a", 200, 2)`, a state reached by calls of the public interface alone, the
queue holds two entries named `"a"` while `"a"` is in the validity set. -/
theorem duplicate_names_in_queue :
    (run reuse_ops init).1 = ⟨[⟨"a", 100, 1⟩, ⟨"a", 200, 2⟩], {"a"}⟩ ∧
    "a" ∈ (run reuse_ops init).1._valid_tm_evt_keys ∧
    ((run reuse_ops init).1._tm_evt_que.filter (fun e => decide (e.name = "a"))).length = 2 := by
  decide

/-- C14. `remove` is a soft cancel: from every state and for every name it makes
no call, leaves the queue as it was, so that `size()` is unchanged, and makes
the validity set the old set minus the name; when the name is not in the
validity set the state is unchanged, and a second `remove` of the same name
changes nothing. -/
theorem remove_soft_cancel (s : State) (name : String) :
    (step (.remove name) s).2 = [] ∧
    (remove name s)._tm_evt_que = s._tm_evt_que ∧
    size (remove name s) = size s ∧
    (remove name s)._valid_tm_evt_keys = s._valid_tm_evt_keys.erase name ∧
    (∀ n, n ∈ (remove name s)._valid_tm_evt_keys ↔ (n ∈ s._valid_tm_evt_keys ∧ n ≠ name)) ∧
    (name ∉ s._valid_tm_evt_keys → remove name s = s) ∧
    remove name (remove name s) = remove name s := by
  refine ⟨rfl, rfl, rfl, rfl, ?_, ?_, ?_⟩
  · intro n
    simp only [remove, Finset.mem_erase]
    tauto
  · intro h
    cases s
    simp only [remove, State.mk.injEq, true_and]
    exact Finset.erase_eq_of_not_mem h
  · simp [remove]

theorem run_append (a b : List Op) (s : State) :
    run (a ++ b) s = ((run b (run a s).1).1, (run a s).2 ++ (run b (run a s).1).2) := by
  induction a generalizing s with
  | nil => simp [run]
  | cons op ops ih => simp [run, ih, List.append_assoc]

theorem fired_calls_nodup (valid : Finset String) (l : List TimerEventWrapper)
    (h : (l.map (fun e => e.name)).Nodup) :
    fired_calls valid l
      = (l.filter (fun e => decide (e.name ∈ valid))).map (fun e => (⟨e.cb, 0⟩ : Call)) := by
  induction l generalizing valid with
  | nil => simp [fired_calls]
  | cons e es ih =>
    simp only [List.map_cons, List.nodup_cons] at h
    simp only [fired_calls, ih _ h.2]
    have hf : es.filter (fun x => decide (x.name ∈ valid.erase e.name))
        = es.filter (fun x => decide (x.name ∈ valid)) := by
      apply List.filter_congr
      intro x hx
      have hne : x.name ≠ e.name := by
        intro heq
        exact h.1 (heq ▸ List.mem_map_of_mem (fun e => e.name) hx)
      simp [Finset.mem_erase, hne]
    rw [hf]
    by_cases hv : e.name ∈ valid <;> simp [hv, List.filter_cons]

theorem tmp_scenario_before_pass (now d1 d2 d3 : Nat) (c1 c2 c3 : TimerEventCallback)
    (h1 : now < d1) (h2 : now < d2) (h3 : now < d3) :
    run [.add now "tmp_1" d1 c1, .add now "tmp_2" d2 c2, .add now "keep_1" d3 c3,
          .remove_if starts_with_tmp] init
      = (⟨[⟨"tmp_1", d1, c1⟩, ⟨"tmp_2", d2, c2⟩, ⟨"keep_1", d3, c3⟩], {"keep_1"}⟩, []) := by
  simp [run, step, add, init, remove_if, Nat.not_le.mpr h1, Nat.not_le.mpr h2, Nat.not_le.mpr h3]
  decide

theorem tmp_scenario_pass (d1 d2 d3 t : Nat) (c1 c2 c3 : TimerEventCallback)
    (h1 : d1 ≤ t) (h2 : d2 ≤ t) (h3 : d3 ≤ t) :
    step (.work t) ⟨[⟨"tmp_1", d1, c1⟩, ⟨"tmp_2", d2, c2⟩, ⟨"keep_1", d3, c3⟩], {"keep_1"}⟩
      = (init, [⟨c3, 0⟩]) := by
  obtain ⟨hque, hperm, _, hcalls, hvalid⟩ := work_loop_spec 3 t
    ⟨[⟨"tmp_1", d1, c1⟩, ⟨"tmp_2", d2, c2⟩, ⟨"keep_1", d3, c3⟩], {"keep_1"}⟩ 0 (Nat.le_refl _)
  simp only [] at hque hperm hcalls hvalid
  have hfil : ([⟨"tmp_1", d1, c1⟩, ⟨"tmp_2", d2, c2⟩, ⟨"keep_1", d3, c3⟩] :
      List TimerEventWrapper).filter (fun e => decide (e.abs_time_ms ≤ t))
      = [⟨"tmp_1", d1, c1⟩, ⟨"tmp_2", d2, c2⟩, ⟨"keep_1", d3, c3⟩] := by
    simp [List.filter_cons, h1, h2, h3]
  rw [hfil] at hperm
  have hnodup : ((work_popped 3 t
      [⟨"tmp_1", d1, c1⟩, ⟨"tmp_2", d2, c2⟩, ⟨"keep_1", d3, c3⟩]).map
        (fun e => e.name)).Nodup := by
    rw [(hperm.map (fun e => e.name)).nodup_iff]
    simp
  have hkeep : (work_popped 3 t
      [⟨"tmp_1", d1, c1⟩, ⟨"tmp_2", d2, c2⟩, ⟨"keep_1", d3, c3⟩]).filter
        (fun e => decide (e.name ∈ ({"keep_1"} : Finset String)))
      = [⟨"keep_1", d3, c3⟩] := by
    have hp := hperm.filter (fun e => decide (e.name ∈ ({"keep_1"} : Finset String)))
    have hc : ([⟨"tmp_1", d1, c1⟩, ⟨"tmp_2", d2, c2⟩, ⟨"keep_1", d3, c3⟩] :
        List TimerEventWrapper).filter
          (fun e => decide (e.name ∈ ({"keep_1"} : Finset String)))
        = [⟨"keep_1", d3, c3⟩] := by
      simp [List.filter_cons]
    rw [hc] at hp
    exact List.perm_singleton.mp hp
  rw [fired_calls_nodup _ _ hnodup, hkeep] at hcalls
  have hq2 : ([⟨"tmp_1", d1, c1⟩, ⟨"tmp_2", d2, c2⟩, ⟨"keep_1", d3, c3⟩] :
      List TimerEventWrapper).filter (fun e => decide (t < e.abs_time_ms)) = [] := by
    simp [List.filter_cons, Nat.not_lt.mpr h1, Nat.not_lt.mpr h2, Nat.not_lt.mpr h3]
  rw [hq2] at hque
  have hv2 : ({"keep_1"} : Finset String) \ ((work_popped 3 t
      [⟨"tmp_1", d1, c1⟩, ⟨"tmp_2", d2, c2⟩, ⟨"keep_1", d3, c3⟩]).map
        (fun e => e.name)).toFinset = ∅ := by
    ext n
    simp only [Finset.mem_sdiff, Finset.mem_singleton, List.mem_toFinset, Finset.not_mem_empty,
      iff_false, not_and, not_not]
    intro hn
    rw [hn]
    have hmem : "keep_1" ∈ ([⟨"tmp_1", d1, c1⟩, ⟨"tmp_2", d2, c2⟩, ⟨"keep_1", d3, c3⟩] :
        List TimerEventWrapper).map (fun e => e.name) := by simp
    exact (hperm.map (fun e => e.name)).symm.subset hmem
  rw [hv2] at hvalid
  have hstate : (work_loop 3 t
      ⟨[⟨"tmp_1", d1, c1⟩, ⟨"tmp_2", d2, c2⟩, ⟨"keep_1", d3, c3⟩], {"keep_1"}⟩ 0).1 = init := by
    cases hw : (work_loop 3 t
      ⟨[⟨"tmp_1", d1, c1⟩, ⟨"tmp_2", d2, c2⟩, ⟨"keep_1", d3, c3⟩], {"keep_1"}⟩ 0).1 with
    | mk q v =>
      rw [hw] at hque hvalid
      simp only [] at hque hvalid
      simp [init, hque, hvalid]
  simp only [step, work_pass, List.length_cons, List.length_nil]
  rw [hstate, hcalls]
  rfl

/-- C15. `remove_if` filters the validity set: from every state and for every
predicate it makes no call, leaves the queue as it was, and leaves in the
validity set exactly the old names on which the predicate is false.  Hence
after `"tmp_1"`, `"tmp_2"` and `"keep_1"` are registered with future deadlines on
a fresh scheduler, `remove_if(name starts with "tmp_")` followed by a worker pass
past all three deadlines and by the destructor makes the one call of the
callback of `"keep_1"`, with code 0. -/
theorem remove_if_filters :
    (∀ (s : State) (pred : String → Bool),
      (step (.remove_if pred) s).2 = [] ∧
      (remove_if pred s)._tm_evt_que = s._tm_evt_que ∧
      size (remove_if pred s) = size s ∧
      ∀ n, n ∈ (remove_if pred s)._valid_tm_evt_keys ↔
        (n ∈ s._valid_tm_evt_keys ∧ pred n = false)) ∧
    (∀ (now d1 d2 d3 t : Nat) (c1 c2 c3 : TimerEventCallback),
      now < d1 → now < d2 → now < d3 → d1 ≤ t → d2 ≤ t → d3 ≤ t →
      run_destroy [.add now "tmp_1" d1 c1, .add now "tmp_2" d2 c2, .add now "keep_1" d3 c3,
          .remove_if starts_with_tmp, .work t] init
        = (init, [⟨c3, 0⟩])) := by
  constructor
  · intro s pred
    refine ⟨rfl, rfl, rfl, ?_⟩
    intro n
    simp [remove_if, Finset.mem_filter]
  · intro now d1 d2 d3 t c1 c2 c3 h1 h2 h3 h4 h5 h6
    have hb := tmp_scenario_before_pass now d1 d2 d3 c1 c2 c3 h1 h2 h3
    have hp := tmp_scenario_pass d1 d2 d3 t c1 c2 c3 h4 h5 h6
    have hr := run_append [.add now "tmp_1" d1 c1, .add now "tmp_2" d2 c2,
      .add now "keep_1" d3 c3, .remove_if starts_with_tmp] [.work t] init
    simp only [List.cons_append, List.nil_append] at hr
    simp only [run_destroy, hr, hb]
    simp [run, hp, destructor, drain_loop, init]

theorem remove_if_filters_witness :
    run_destroy [.add 0 "tmp_1" 10 1, .add 0 "tmp_2" 20 2, .add 0 "keep_1" 30 3,
        .remove_if starts_with_tmp, .work 100] init
      = (init, [⟨3, 0⟩]) :=
  remove_if_filters.2 0 10 20 30 100 1 2 3 (by decide) (by decide) (by decide) (by decide)
    (by decide) (by decide)

/-! ## Reuse of a fired name -/

theorem work_loop_fired_popped (fuel curr_time_ms : Nat) (s : State) :
    ∀ e ∈ work_loop_fired fuel curr_time_ms s,
      e ∈ work_popped fuel curr_time_ms s._tm_evt_que := by
  induction fuel generalizing s with
  | zero => simp [work_loop_fired]
  | succ n ih =>
    simp only [work_loop_fired, work_popped]
    cases hq : popTop s._tm_evt_que with
    | none => simp
    | some p =>
      obtain ⟨m, r⟩ := p
      simp only []
      by_cases hdue : m.abs_time_ms ≤ curr_time_ms
      · simp only [hdue, if_true]
        intro e he
        rcases List.mem_append.mp he with h1 | h2
        · have : e = m := by
            by_cases hv : m.name ∈ s._valid_tm_evt_keys
            · simpa [hv] using h1
            · simp [hv] at h1
          rw [this]
          exact List.mem_cons_self _ _
        · exact List.mem_cons_of_mem _ (ih ⟨r, s._valid_tm_evt_keys.erase m.name⟩ e h2)
      · simp [hdue]

/-- C16. A fired name can be reused at once: from every state, hence from every
reachable one, when a worker pass calls the callback of an entry named `n`
(the call has code 0), `n` is not in the validity set right after the pass, so
that `add(n, deadline, cb)` with a future deadline then returns true, makes no
call, puts `n` in the validity set and pushes the new entry. -/
theorem fired_name_reusable (s : State) (curr_time_ms : Nat) (e : TimerEventWrapper)
    (hfired : e ∈ step_fired (.work curr_time_ms) s) :
    (⟨e.cb, 0⟩ : Call) ∈ (step (.work curr_time_ms) s).2 ∧
    e.name ∉ (step (.work curr_time_ms) s).1._valid_tm_evt_keys ∧
    ∀ (now abs_time_ms : Nat) (cb : TimerEventCallback), now < abs_time_ms →
      add now e.name abs_time_ms cb (step (.work curr_time_ms) s).1
        = (true,
            ⟨(step (.work curr_time_ms) s).1._tm_evt_que ++ [⟨e.name, abs_time_ms, cb⟩],
              insert e.name (step (.work curr_time_ms) s).1._valid_tm_evt_keys⟩,
            []) := by
  have hpop := work_loop_fired_popped s._tm_evt_que.length curr_time_ms s e hfired
  have hvalid := (work_loop_spec s._tm_evt_que.length curr_time_ms s 0 (Nat.le_refl _)).2.2.2.2
  have hnot : e.name ∉ (step (.work curr_time_ms) s).1._valid_tm_evt_keys := by
    simp only [step, work_pass, hvalid, Finset.mem_sdiff, List.mem_toFinset, not_and, not_not]
    intro _
    exact List.mem_map_of_mem (fun e => e.name) hpop
  refine ⟨?_, hnot, ?_⟩
  · simp only [step, work_pass, work_loop_calls_eq, List.mem_map]
    exact ⟨e, hfired, rfl⟩
  · intro now abs_time_ms cb hfuture
    simp [add, Nat.not_le.mpr hfuture, hnot]

theorem fired_name_reusable_witness :
    (⟨"a", 100, 1⟩ : TimerEventWrapper) ∈ step_fired (.work 100) ⟨[⟨"a", 100, 1⟩], {"a"}⟩ ∧
    "a" ∉ (step (.work 100) ⟨[⟨"a", 100, 1⟩], {"a"}⟩).1._valid_tm_evt_keys ∧
    add 100 "a" 300 2 (step (.work 100) ⟨[⟨"a", 100, 1⟩], {"a"}⟩).1
      = (true, ⟨[⟨"a", 300, 2⟩], {"a"}⟩, []) :=
  ⟨by decide,
   (fired_name_reusable ⟨[⟨"a", 100, 1⟩], {"a"}⟩ 100 ⟨"a", 100, 1⟩ (by decide)).2.1,
   by decide⟩

/-! ## The timed wait and the sleep bound -/

/-- C17, the code at the failing input. With the one pending entry
`("x", 10000)` at clock value 0 the queue is not empty and its head is in the
future; the wake-up predicate handed to `wait_for` is true, so the wait does
not block; the pass that follows leaves the state as it was, makes no call and
computes the sleep bound 10000; and on every state with a non-empty queue the
predicate is true. -/
theorem wake_pred_true_while_pending :
    (add 0 "x" 10000 1 init).2.1 = ⟨[⟨"x", 10000, 1⟩], {"x"}⟩ ∧
    wake_pred ⟨[⟨"x", 10000, 1⟩], {"x"}⟩ = true ∧
    wait_for_blocks ⟨[⟨"x", 10000, 1⟩], {"x"}⟩ = false ∧
    work_pass 0 ⟨[⟨"x", 10000, 1⟩], {"x"}⟩ 0 = (⟨[⟨"x", 10000, 1⟩], {"x"}⟩, 10000, []) ∧
    (∀ s : State, s._tm_evt_que ≠ [] → wake_pred s = true ∧ wait_for_blocks s = false) := by
  refine ⟨by decide, by decide, by decide, by decide, ?_⟩
  intro s hs
  cases hq : s._tm_evt_que with
  | nil => exact absurd hq hs
  | cons e q => simp [wake_pred, wait_for_blocks, hq]

theorem work_loop_sleep (fuel curr_time_ms : Nat) (s : State) (to_sleep_time_ms : Nat)
    (h : s._tm_evt_que.length ≤ fuel)
    (hne : (work_loop fuel curr_time_ms s to_sleep_time_ms).1._tm_evt_que ≠ []) :
    ∃ m r, popTop (work_loop fuel curr_time_ms s to_sleep_time_ms).1._tm_evt_que = some (m, r) ∧
      curr_time_ms < m.abs_time_ms ∧
      (work_loop fuel curr_time_ms s to_sleep_time_ms).2.1
        = (((m.abs_time_ms : Int) - (curr_time_ms : Int)) % 2 ^ 64).toNat := by
  induction fuel generalizing s with
  | zero =>
    have hnil : s._tm_evt_que = [] := List.length_eq_zero.mp (Nat.le_zero.mp h)
    simp [work_loop, hnil] at hne
  | succ n ih =>
    simp only [work_loop] at hne ⊢
    cases hq : popTop s._tm_evt_que with
    | none =>
      rw [hq] at hne
      simp only [] at hne
      exact absurd (popTop_eq_none.mp hq) hne
    | some p =>
      obtain ⟨m, r⟩ := p
      rw [hq] at hne
      have hlen := popTop_length hq
      simp only [] at hne ⊢
      by_cases hdue : m.abs_time_ms ≤ curr_time_ms
      · simp only [hdue, if_true] at hne ⊢
        exact ih ⟨r, s._valid_tm_evt_keys.erase m.name⟩ (by simp only []; omega) hne
      · simp only [hdue, if_false]
        exact ⟨m, r, hq, Nat.not_le.mp hdue, rfl⟩

/-- C19. Sleep bound computation: with deadlines in the range of `uint64_t` and
the clock value held fixed, when a worker pass ends with a non-empty queue the
sleep bound it leaves is the minimum deadline of that queue minus the clock
value, as integers, so that the unsigned 64-bit subtraction does not wrap,
and it is strictly positive; and on an empty queue the bound used for the wait
is the polling ceiling, 1000 ms, whatever bound was computed before. -/
theorem sleep_bound_computation (s : State) (curr_time_ms to_sleep_time_ms : Nat)
    (hrange : ∀ e ∈ s._tm_evt_que, e.abs_time_ms < 2 ^ 64)
    (hne : (work_pass curr_time_ms s to_sleep_time_ms).1._tm_evt_que ≠ []) :
    (∃ m ∈ (work_pass curr_time_ms s to_sleep_time_ms).1._tm_evt_que,
      (∀ e ∈ (work_pass curr_time_ms s to_sleep_time_ms).1._tm_evt_que,
        m.abs_time_ms ≤ e.abs_time_ms) ∧
      curr_time_ms < m.abs_time_ms ∧
      ((work_pass curr_time_ms s to_sleep_time_ms).2.1 : Int)
        = (m.abs_time_ms : Int) - (curr_time_ms : Int) ∧
      0 < (work_pass curr_time_ms s to_sleep_time_ms).2.1 ∧
      (work_pass curr_time_ms s to_sleep_time_ms).2.1 < 2 ^ 64) ∧
    (∀ (valid : Finset String) (previous : Nat),
      sleep_bound ⟨[], valid⟩ previous = CONDVAR_TIMEOUT_MS ∧ CONDVAR_TIMEOUT_MS = 1000) := by
  constructor
  · obtain ⟨m, r, hq, hlt, hsleep⟩ :=
      work_loop_sleep s._tm_evt_que.length curr_time_ms s to_sleep_time_ms (Nat.le_refl _) hne
    have hmem : m ∈ (work_pass curr_time_ms s to_sleep_time_ms).1._tm_evt_que :=
      (popTop_perm hq).symm.subset (List.mem_cons_self m r)
    have hque := (work_loop_spec s._tm_evt_que.length curr_time_ms s to_sleep_time_ms
      (Nat.le_refl _)).1
    have hm_old : m ∈ s._tm_evt_que := by
      have h2 := hmem
      simp only [work_pass, hque, List.mem_filter] at h2
      exact h2.1
    have hr := hrange m hm_old
    have hval : (work_pass curr_time_ms s to_sleep_time_ms).2.1
        = m.abs_time_ms - curr_time_ms := by
      simp only [work_pass, hsleep]
      have h64 : ((2 : Int) ^ 64) = 18446744073709551616 := by norm_num
      have h64n : ((2 : Nat) ^ 64) = 18446744073709551616 := by norm_num
      rw [h64]
      rw [h64n] at hr
      omega
    refine ⟨m, hmem, popTop_le hq, hlt, ?_, ?_, ?_⟩
    · rw [hval]
      omega
    · rw [hval]
      omega
    · rw [hval]
      omega
  · intro valid previous
    simp [sleep_bound, CONDVAR_TIMEOUT_MS]

theorem sleep_bound_computation_witness :
    (∀ e ∈ ([⟨"a", 100, 1⟩, ⟨"b", 300, 2⟩] : List TimerEventWrapper), e.abs_time_ms < 2 ^ 64) ∧
    work_pass 150 ⟨[⟨"a", 100, 1⟩, ⟨"b", 300, 2⟩], {"a", "b"}⟩ 7
      = (⟨[⟨"b", 300, 2⟩], {"b"}⟩, 150, [⟨1, 0⟩]) ∧
    ∃ m ∈ (work_pass 150 ⟨[⟨"a", 100, 1⟩, ⟨"b", 300, 2⟩], {"a", "b"}⟩ 7).1._tm_evt_que,
      (∀ e ∈ (work_pass 150 ⟨[⟨"a", 100, 1⟩, ⟨"b", 300, 2⟩], {"a", "b"}⟩ 7).1._tm_evt_que,
        m.abs_time_ms ≤ e.abs_time_ms) ∧
      150 < m.abs_time_ms ∧
      ((work_pass 150 ⟨[⟨"a", 100, 1⟩, ⟨"b", 300, 2⟩], {"a", "b"}⟩ 7).2.1 : Int)
        = (m.abs_time_ms : Int) - ((150 : Nat) : Int) ∧
      0 < (work_pass 150 ⟨[⟨"a", 100, 1⟩, ⟨"b", 300, 2⟩], {"a", "b"}⟩ 7).2.1 ∧
      (work_pass 150 ⟨[⟨"a", 100, 1⟩, ⟨"b", 300, 2⟩], {"a", "b"}⟩ 7).2.1 < 2 ^ 64 :=
  ⟨by decide, by decide,
   (sleep_bound_computation ⟨[⟨"a", 100, 1⟩, ⟨"b", 300, 2⟩], {"a", "b"}⟩ 150 7
      (by decide) (by decide)).1⟩

/-! ## No orphan valid names -/

theorem step_no_orphans (op : Op) (s : State) (h : no_orphans s) :
    no_orphans (step op s).1 := by
  cases op with
  | add curr_time_ms name abs_time_ms cb =>
    simp only [step, add]
    by_cases h1 : abs_time_ms ≤ curr_time_ms
    · simpa [h1] using h
    · by_cases h2 : name ∈ s._valid_tm_evt_keys
      · simpa [h1, h2] using h
      · simp only [h1, h2, if_false]
        intro n hn
        simp only [Finset.mem_insert] at hn
        rcases hn with rfl | hn
        · exact ⟨⟨n, abs_time_ms, cb⟩, by simp, rfl⟩
        · obtain ⟨e, he, hname⟩ := h n hn
          exact ⟨e, List.mem_append_left _ he, hname⟩
  | remove name =>
    intro n hn
    simp only [step, remove, Finset.mem_erase] at hn
    exact h n hn.2
  | remove_if pred =>
    intro n hn
    simp only [step, remove_if, Finset.mem_filter] at hn
    exact h n hn.1
  | clear =>
    intro n hn
    simp [step, clear_eq_init, init] at hn
  | work curr_time_ms =>
    obtain ⟨hque, hperm, _, _, hvalid⟩ :=
      work_loop_spec s._tm_evt_que.length curr_time_ms s 0 (Nat.le_refl _)
    intro n hn
    simp only [step, work_pass, hvalid, Finset.mem_sdiff, List.mem_toFinset] at hn
    obtain ⟨e, he, hname⟩ := h n hn.1
    refine ⟨e, ?_, hname⟩
    simp only [step, work_pass, hque, List.mem_filter, decide_eq_true_eq]
    refine ⟨he, ?_⟩
    by_contra hdue
    have hin : e ∈ s._tm_evt_que.filter (fun e => decide (e.abs_time_ms ≤ curr_time_ms)) := by
      simp only [List.mem_filter, decide_eq_true_eq]
      exact ⟨he, Nat.not_lt.mp hdue⟩
    have hpopped := hperm.symm.subset hin
    exact hn.2 (hname ▸ List.mem_map_of_mem (fun e => e.name) hpopped)

theorem run_no_orphans (ops : List Op) (s : State) (h : no_orphans s) :
    no_orphans (run ops s).1 := by
  induction ops generalizing s with
  | nil => simpa [run] using h
  | cons op ops ih =>
    simp only [run]
    exact ih _ (step_no_orphans op s h)

/-- C20. No orphan valid names: in every state reached from the empty scheduler
by a sequence of `add`, `remove`, `remove_if`, `clear` and worker passes, every
name of the validity set is the name of at least one entry of the queue; so
whenever `add` returns false, the queue holds an entry with the rejected
name. -/
theorem no_orphan_valid_names (ops : List Op) :
    no_orphans (run ops init).1 ∧
    (∀ n ∈ (run ops init).1._valid_tm_evt_keys,
      ∃ e ∈ (run ops init).1._tm_evt_que, e.name = n) ∧
    (∀ (now : Nat) (name : String) (abs_time_ms : Nat) (cb : TimerEventCallback),
      (add now name abs_time_ms cb (run ops init).1).1 = false →
      ∃ e ∈ (run ops init).1._tm_evt_que, e.name = name) := by
  have h := run_no_orphans ops init (by intro n hn; simp [init] at hn)
  refine ⟨h, h, ?_⟩
  intro now name abs_time_ms cb hfalse
  by_cases hv : name ∈ (run ops init).1._valid_tm_evt_keys
  · exact h name hv
  · by_cases h1 : abs_time_ms ≤ now <;> simp [add, h1, hv] at hfalse

/-! ## Lock discipline -/

theorem guarded_append_accesses (a b : List Access) (h : only_accesses a = true) :
    guarded true (a ++ b) = guarded true b := by
  induction a with
  | nil => rfl
  | cons e es ih =>
    simp only [only_accesses, List.all_cons, Bool.and_eq_true, Bool.or_eq_true,
      decide_eq_true_eq] at h
    have ih2 := ih (by simpa [only_accesses] using h.2)
    rcases h.1 with rfl | rfl <;> simp [guarded, ih2]

theorem only_accesses_append (a b : List Access) (ha : only_accesses a = true)
    (hb : only_accesses b = true) : only_accesses (a ++ b) = true := by
  simp only [only_accesses, List.all_append, Bool.and_eq_true] at *
  exact ⟨ha, hb⟩

theorem clear_loop_trace_accesses (fuel : Nat) (q : List TimerEventWrapper) :
    only_accesses (clear_loop_trace fuel q) = true := by
  induction fuel generalizing q with
  | zero => rfl
  | succ n ih =>
    simp only [clear_loop_trace]
    cases popTop q with
    | none => rfl
    | some p => exact only_accesses_append _ _ rfl (ih p.2)

theorem work_loop_trace_accesses (fuel curr_time_ms : Nat) (s : State) :
    only_accesses (work_loop_trace fuel curr_time_ms s) = true := by
  induction fuel generalizing s with
  | zero => rfl
  | succ n ih =>
    simp only [work_loop_trace]
    cases popTop s._tm_evt_que with
    | none => rfl
    | some p =>
      simp only []
      by_cases hdue : p.1.abs_time_ms ≤ curr_time_ms
      · simp only [hdue, if_true]
        exact only_accesses_append _ _ rfl (ih _)
      · simp only [hdue, if_false]
        rfl

theorem replicate_keys_accesses (n : Nat) :
    only_accesses (List.replicate n [Access.keys, .keys, .keys]).flatten = true := by
  induction n with
  | zero => rfl
  | succ n ih =>
    simp only [List.replicate_succ, List.flatten_cons]
    exact only_accesses_append _ _ rfl ih

theorem drain_loop_trace_head (fuel : Nat) (q : List TimerEventWrapper) :
    ∃ es, drain_loop_trace fuel q = .que :: es := by
  cases fuel with
  | zero => exact ⟨[], rfl⟩
  | succ n =>
    simp only [drain_loop_trace]
    cases popTop q with
    | none => exact ⟨[], rfl⟩
    | some p => exact ⟨_, rfl⟩

/-- C18, as stated, fails: on the scheduler with the one pending entry
`("x", 10000)` the destructor reads the queue (the test of line 35) without
holding the mutex, so `size()` is not the only access made without it. -/
theorem destructor_unlocked_counterexample :
    guarded false (destructor_trace ⟨[⟨"x", 10000, 1⟩], {"x"}⟩) = false := by
  decide

/-- C18, amended. Every statement of `add`, `remove`, `remove_if`, `clear` and of
an iteration of the worker that reads or writes the queue or the validity set
runs while the mutex is held; the accesses made without it are those of
`size()` and those of the destructor, whose drain and final `clear()` take no
lock. -/
theorem lock_discipline :
    (∀ (curr_time_ms : Nat) (name : String) (abs_time_ms : Nat) (s : State),
      guarded false (add_trace curr_time_ms name abs_time_ms s) = true) ∧
    guarded false remove_trace = true ∧
    (∀ s : State, guarded false (remove_if_trace s) = true) ∧
    (∀ s : State, guarded false (clear_trace s) = true) ∧
    (∀ (s0 : State) (curr_time_ms : Nat) (s : State),
      guarded false (work_func_trace s0 curr_time_ms s) = true) ∧
    guarded false size_trace = false ∧
    (∀ s : State, guarded false (destructor_trace s) = false) := by
  refine ⟨?_, rfl, ?_, ?_, ?_, rfl, ?_⟩
  · intro curr_time_ms name abs_time_ms s
    unfold add_trace
    by_cases h1 : abs_time_ms ≤ curr_time_ms
    · simp [h1, guarded]
    · by_cases h2 : name ∈ s._valid_tm_evt_keys <;> simp [h1, h2, guarded]
  · intro s
    have h := guarded_append_accesses _ [Access.keys, .unlock]
      (replicate_keys_accesses s._valid_tm_evt_keys.card)
    simpa [remove_if_trace, guarded] using h
  · intro s
    have h := guarded_append_accesses _ [Access.unlock]
      (clear_loop_trace_accesses s._tm_evt_que.length s._tm_evt_que)
    simpa [clear_trace, guarded] using h
  · intro s0 curr_time_ms s
    have h := guarded_append_accesses _ [Access.unlock]
      (work_loop_trace_accesses s._tm_evt_que.length curr_time_ms s)
    by_cases hb : wait_for_blocks s0 = true
    · simpa [work_func_trace, hb, guarded] using h
    · simpa [work_func_trace, hb, guarded] using h
  · intro s
    obtain ⟨es, hes⟩ := drain_loop_trace_head s._tm_evt_que.length s._tm_evt_que
    simp [destructor_trace, hes, guarded]

end Zimer
